import Mathlib

set_option linter.unusedVariables false

/-!
Verification development for the dnit incremental task runner (`dnit.ts`).

The embedding is split into four layers, each translated from the source:

* `FileState` / `TrackedFileData` and the functions `getTimestamp`,
  `getHashC`, `isUpToDateC`, `getFileData`, `getFileDataOrCached` embed the
  `TrackedFile` class.  Filesystem reads are modelled as pure reads of a
  `FileState`; the pluggable `gethash` function is modelled by the
  `hashResult` field, and invocations of it are counted by explicit state
  passing (the `calls` argument).
* `andThen` / `upToDateChain` / `checkFileDepsB` / `targetsExist` /
  `execUpToDate` embed the up-to-date decision sequence of `Task.exec`
  (the three `actualUpToDate = actualUpToDate && await check()` lines)
  together with an event log recording the observable side effects of the
  checks (existence probes and the custom-predicate call).
* `execCli` embeds the command-line entry point `exec(cliArgs)` as the list
  of external effects it performs, in order.
* `Env` / `SysState` / `execCall` / `stepFn` / `run` embed the task-graph
  execution engine as a small-step machine, described in detail below.
-/

namespace Dnit

/-- Cached snapshot of one tracked file, from the ADL manifest declaration
`TrackedFileData = { hash : TrackedFileHash, timestamp : Timestamp }`. -/
structure TrackedFileData where
  hash : String
  timestamp : String
deriving DecidableEq, Repr

/-- Abstract state of one filesystem path as `TrackedFile` sees it:
whether the path currently exists, the string `mtime?.toISOString() || ""`
that `Deno.lstat` yields for it (a null `mtime` is encoded as `""`), and
the value that the file's pluggable `gethash` function returns on the
current content. -/
structure FileState where
  present : Bool
  mtime : String
  hashResult : String
deriving DecidableEq, Repr

/-- `TrackedFile.getTimestamp`: the modification time, or the empty
sentinel when `Deno.lstat` raises `NotFound`. -/
def getTimestamp (f : FileState) : String :=
  if f.present then f.mtime else ""

/-- `TrackedFile.exists`. -/
def fexists (f : FileState) : Bool := f.present

/-- `TrackedFile.getHash` with explicit state passing: `calls` counts the
invocations of the pluggable `gethash` function.  A missing file yields the
empty sentinel without invoking `gethash`. -/
def getHashC (f : FileState) (calls : Nat) : String × Nat :=
  if !f.present then ("", calls)
  else (f.hashResult, calls + 1)

/-- `TrackedFile.getHash`, result only. -/
def getHash (f : FileState) : String := (getHashC f 0).1

/-- `TrackedFile.isUpToDate(tData)` with explicit state passing for the
`gethash` invocation count: no cached data means not fresh; an equal
timestamp is fresh without hashing; otherwise compare content hashes. -/
def isUpToDateC (f : FileState) (tData : Option TrackedFileData) (calls : Nat) :
    Bool × Nat :=
  match tData with
  | none => (false, calls)
  | some d =>
    if getTimestamp f = d.timestamp then (true, calls)
    else
      let r := getHashC f calls
      (decide (r.1 = d.hash), r.2)

/-- `TrackedFile.isUpToDate`, result only. -/
def isUpToDate (f : FileState) (tData : Option TrackedFileData) : Bool :=
  (isUpToDateC f tData 0).1

/-- Number of `gethash` invocations one `TrackedFile.isUpToDate` call
performs. -/
def hashCalls (f : FileState) (tData : Option TrackedFileData) : Nat :=
  (isUpToDateC f tData 0).2

/-- `TrackedFile.getFileData`: recompute hash and timestamp. -/
def getFileData (f : FileState) : TrackedFileData :=
  { hash := getHash f, timestamp := getTimestamp f }

/-- `TrackedFile.getFileDataOrCached`: the cached data and `true` when
fresh, else a freshly computed snapshot and `false`. -/
def getFileDataOrCached (f : FileState) (tData : Option TrackedFileData) :
    TrackedFileData × Bool :=
  match tData with
  | some d =>
    if isUpToDate f (some d) then (d, true) else (getFileData f, false)
  | none => (getFileData f, false)

/-- Observable side effects of the three freshness checks in `Task.exec`:
per-file-dependency freshness checks, per-target existence probes
(`tf.exists()`), and the call of the custom up-to-date predicate. -/
inductive CheckEv where
  | fileDepCheck (f : Nat)
  | existsProbe (f : Nat)
  | predicateCall
deriving DecidableEq, Repr

/-- One `actualUpToDate = actualUpToDate && await check()` statement:
because `&&` short-circuits, `check` is invoked (and its effects happen)
only when the accumulator is still `true`. -/
def andThen (acc : Bool × List CheckEv) (check : Unit → Bool × List CheckEv) :
    Bool × List CheckEv :=
  if acc.1 then
    let r := check ()
    (r.1, acc.2 ++ r.2)
  else acc

/-- The decision sequence of `Task.exec`: start from `true`, then AND in
`checkFileDeps`, `targetsExist` and `uptodate`, in this fixed order. -/
def upToDateChain (c1 c2 c3 : Unit → Bool × List CheckEv) :
    Bool × List CheckEv :=
  andThen (andThen (andThen (true, []) c1) c2) c3

/-- Freshness result of `Task.checkFileDeps`: the AND over all file
dependencies of `getFileDataOrCached(cached).upToDate`.  `files` gives the
live state per path, `man` the task's cache entry (the per-task map the
manifest collaborator stores; its key/value contract is modelled from the
spec because `manifest.ts` is outside the provided sources).  All cached
reads happen against `man` as loaded at loop time, matching the source
where the synchronous loop issues all reads before any write lands. -/
def checkFileDepsB (fdeps : List Nat) (files : Nat → FileState)
    (man : Nat → Option TrackedFileData) : Bool :=
  fdeps.foldl (fun b f => b && (getFileDataOrCached (files f) (man f)).2) true

/-- Cache-entry writes of `Task.checkFileDeps`: every file dependency's
(possibly freshly computed) snapshot is written back regardless of the
freshness outcome. -/
def checkFileDepsMan (fdeps : List Nat) (files : Nat → FileState)
    (man : Nat → Option TrackedFileData) : Nat → Option TrackedFileData :=
  fdeps.foldl
    (fun m f => fun p =>
      if p = f then some (getFileDataOrCached (files f) (man f)).1 else m p)
    man

/-- `Task.targetsExist`: all targets exist, written as in the source as
"NOT some NOT exist". -/
def targetsExist (targets : List Nat) (files : Nat → FileState) : Bool :=
  let tex := targets.map (fun tf => fexists (files tf))
  !(tex.any (fun t => !t))

/-- `Task.targetsExist` with its effect log: one existence probe per
declared target (each `tf.exists()` call). -/
def targetsExistL (targets : List Nat) (files : Nat → FileState) :
    Bool × List CheckEv :=
  (targetsExist targets files, targets.map CheckEv.existsProbe)

/-- The full `actualUpToDate` computation of `Task.exec` (lines computing
`actualUpToDate` from `checkFileDeps`, `targetsExist` and `uptodate`),
with the effect log of the three checks.  `pred` is the result the task's
up-to-date predicate would return when called. -/
def execUpToDate (fdeps targets : List Nat) (files : Nat → FileState)
    (man : Nat → Option TrackedFileData) (pred : Bool) :
    Bool × List CheckEv :=
  upToDateChain
    (fun _ => (checkFileDepsB fdeps files man, fdeps.map CheckEv.fileDepCheck))
    (fun _ => targetsExistL targets files)
    (fun _ => (pred, [CheckEv.predicateCall]))

/-- A member of the combined `deps` list of `TaskParams`, which the source
splits by runtime `instanceof` checks. -/
inductive DepRef where
  | taskRef (t : Nat)
  | fileRef (f : Nat)
deriving DecidableEq, Repr

/-- `Task.getTaskDeps`: declared task dependencies plus the task-valued
members of the combined `deps` list. -/
def getTaskDeps (task_deps : Option (List Nat)) (deps : Option (List DepRef)) :
    List Nat :=
  (task_deps.getD []) ++ (deps.getD []).filterMap
    (fun d => match d with | DepRef.taskRef t => some t | DepRef.fileRef _ => none)

/-- `Task.getTrackedFiles`: declared file dependencies plus the file-valued
members of the combined `deps` list. -/
def getTrackedFiles (file_deps : Option (List Nat)) (deps : Option (List DepRef)) :
    List Nat :=
  (file_deps.getD []) ++ (deps.getD []).filterMap
    (fun d => match d with | DepRef.fileRef f => some f | DepRef.taskRef _ => none)

/-- `runAlways`: the convenience predicate that is always "not up to
date". -/
def runAlways : Unit → Bool := fun _ => false

/-- `TaskParams`: the construction parameters of a task.  Tasks and
tracked files are referred to by their numeric ids. -/
structure TaskParams where
  name : String
  description : Option String := none
  task_deps : Option (List Nat) := none
  file_deps : Option (List Nat) := none
  deps : Option (List DepRef) := none
  targets : Option (List Nat) := none
  uptodate : Option (Unit → Bool) := none

/-- The fields the `Task` constructor initialises. -/
structure TaskObj where
  name : String
  description : Option String
  task_deps : List Nat
  file_deps : List Nat
  targets : List Nat
  uptodate : Unit → Bool

/-- The `Task` constructor: an absent `uptodate` parameter defaults to
`runAlways` (the `taskParams.uptodate || runAlways` line). -/
def makeTask (p : TaskParams) : TaskObj :=
  { name := p.name
    description := p.description
    task_deps := getTaskDeps p.task_deps p.deps
    file_deps := getTrackedFiles p.file_deps p.deps
    targets := p.targets.getD []
    uptodate := p.uptodate.getD runAlways }

/-- External effects of the entry point `exec(cliArgs)`, in order:
printing the task table for `list`, loading the manifest, running every
task's `setup`, executing the resolved task, logging the unknown-task
error, saving the manifest. -/
inductive ExecEv where
  | listed
  | manifestLoad
  | setupTasks
  | taskRun (name : String)
  | errorTaskNotFound (name : String)
  | manifestSave
deriving DecidableEq, Repr

/-- The entry point `exec(cliArgs)` as the list of external effects it
performs.  `registered` is the set of task names in `taskRegister`,
`taskName` the first positional argument.  `log.error` on an unknown name
does not throw, so the function always continues to `manifest.save()`;
the embedding is correspondingly total. -/
def execCli (registered : List String) (taskName : String) : List ExecEv :=
  if taskName = "list" then [ExecEv.listed]
  else
    [ExecEv.manifestLoad, ExecEv.setupTasks] ++
      (if taskName ∈ registered then [ExecEv.taskRun taskName]
       else [ExecEv.errorTaskNotFound taskName]) ++
      [ExecEv.manifestSave]

/-!
The task-graph execution engine as a small-step machine.

Granularity.  JavaScript's single-threaded event loop runs every stretch of
code between two `await`s atomically.  Calling `exec()` on the requested
task therefore runs, in one synchronous burst, the whole cascade of
entry checks, `inprogressTasks.add`, implicit-dependency registration and
`execDependencies` calls down the dependency tree, leaving every reached
task suspended at its `await Promise.all(...)`; this burst is the function
`execCall`.  Everything after that suspension point is driven by I/O
completions (file stats, hashing, the actions' own work), whose relative
order is genuinely nondeterministic, so it is modelled by a step relation:

* `Ev.check t` — `t`'s `Promise.all` has resolved (all task dependencies
  `t` itself started are done) and `t` runs its three freshness checks,
  including the cache-entry writes of `checkFileDeps`; if up to date, the
  same synchronous stretch also marks `t` done.
* `Ev.act t` — `t`'s action runs: it reads `t`'s file dependencies (the
  versions it observes are recorded in `observed`) and rewrites `t`'s
  targets (recorded in `actedOut`).
* `Ev.recalc t` — the post-action block: it creates one snapshot-refresh
  promise per file dependency but, as in the source, never pushes them
  into `promisesInProgress`, so `await Promise.all([])` awaits nothing and
  the same stretch marks `t` done; the created promises are left in
  `pending`.
* `Ev.service t f` — one of the unawaited snapshot-refresh promises
  resolves and writes the file's current state into the cache entry.

File contents are abstracted to a version counter: version `0` means the
file does not exist, and a task's action bumps the version of each of its
targets (a content change).  A cached snapshot is the recorded version;
version equality stands for the hash/timestamp comparison of
`TrackedFile.isUpToDate`, which is embedded separately above.  The
manifest collaborator (`manifest.ts`, outside the provided sources) is
modelled from the spec's key/value contract: per task, per file path, one
optional cached snapshot, all entries starting empty.
-/

/-- Static description of one registered task: declared task dependencies,
file dependencies, targets (all by id, in declaration order) and the
result the task's up-to-date predicate returns when called. -/
structure TaskDef where
  tdeps : List Nat
  fdeps : List Nat
  targets : List Nat
  utdRes : Bool
deriving DecidableEq, Repr, Inhabited

/-- A build script: the registered tasks in registration order, the number
of distinct tracked file paths, and each file's initial version (`0` =
missing). -/
structure Env where
  tasks : List TaskDef
  numFiles : Nat
  initVer : List Nat
deriving DecidableEq, Repr, Inhabited

def taskOf (env : Env) (t : Nat) : TaskDef := env.tasks.getD t default

/-- The `targetRegister` reverse index after all `setup()` calls ran:
maps a file id to the task producing it, the last registration winning. -/
def targetRegister (env : Env) (f : Nat) : Option Nat :=
  env.tasks.enum.foldl
    (fun acc it => if f ∈ it.2.targets then some it.1 else acc) none

/-- Where one task stands inside `Task.exec` between suspension points:
not yet called, suspended at `await Promise.all` in `execDependencies`
(retaining the list of dependencies it started), action started, action
finished with the post-action block pending, done. -/
inductive Phase where
  | idle
  | waiting (started : List Nat)
  | acting
  | recalcing
  | finished
deriving DecidableEq, Repr, Inhabited

/-- The process-wide mutable state of one invocation: the done and
in-progress sets, each task's (possibly implicitly extended) task
dependencies, each task's phase, the file versions, the manifest's cache
entries (`manifest[t][f]` = cached version), the fired-but-unawaited
post-action refresh promises, and per task the file-dependency versions
its action observed, the target versions its action produced and the list
of dependencies its `execDependencies` started. -/
structure SysState where
  done : List Nat
  inprog : List Nat
  tdeps : List (List Nat)
  phase : List Phase
  fileVer : List Nat
  manifest : List (List (Option Nat))
  pending : List (Nat × Nat)
  observed : List (Option (List Nat))
  actedOut : List (Option (List Nat))
  started : List (Option (List Nat))
deriving DecidableEq, Repr, Inhabited

def SysState.phaseOf (s : SysState) (t : Nat) : Phase := s.phase.getD t Phase.idle

def SysState.startedOf (s : SysState) (t : Nat) : Option (List Nat) :=
  s.started.getD t none

def SysState.observedOf (s : SysState) (t : Nat) : Option (List Nat) :=
  s.observed.getD t none

/-- Current version of file `f`. -/
def verOf (s : SysState) (f : Nat) : Nat := s.fileVer.getD f 0

/-- Modelled from the spec: `get(taskName, path)` of the manifest's
key/value contract (`manifest.ts` is not among the provided sources). -/
def manGet (m : List (List (Option Nat))) (t f : Nat) : Option Nat :=
  (m.getD t []).getD f none

/-- Modelled from the spec: `set(taskName, path, snapshot)` of the
manifest's key/value contract. -/
def manSet (m : List (List (Option Nat))) (t f : Nat) (v : Nat) :
    List (List (Option Nat)) :=
  m.set t ((m.getD t []).set f (some v))

/-- JS `Set.add`: insert if absent (order irrelevant here). -/
def insertNew (x : Nat) (l : List Nat) : List Nat :=
  if x ∈ l then l else x :: l

/-- JS `Set.add` preserving insertion order: append if absent. -/
def addIfAbsent (x : Nat) (l : List Nat) : List Nat :=
  if x ∈ l then l else l ++ [x]

/-- The state after `manifest.load()` and every task's `setup()`:
nothing done or in progress, declared task dependencies in place, all
tasks unstarted, files at their initial versions, one empty cache entry
per task. -/
def setupState (env : Env) : SysState :=
  { done := []
    inprog := []
    tdeps := env.tasks.map (fun td => td.tdeps)
    phase := List.replicate env.tasks.length Phase.idle
    fileVer := env.initVer
    manifest := List.replicate env.tasks.length
      (List.replicate env.numFiles none)
    pending := []
    observed := List.replicate env.tasks.length none
    actedOut := List.replicate env.tasks.length none
    started := List.replicate env.tasks.length none }

/-- The synchronous burst of calling `Task.exec()` on task `t`:
return immediately if `t` is done or in progress; otherwise mark `t` in
progress, add the producing task of every file dependency found in
`targetRegister` to `t`'s task dependencies, and run `execDependencies`,
which synchronously calls `exec` on every current task dependency that is
neither done nor in progress (collecting the started ones) and suspends
`t` until they are done.  `fuel` bounds the recursion depth; any fuel
exceeding the number of tasks is enough because each nested call first
adds an unvisited task to the in-progress set. -/
def execCall (env : Env) : Nat → SysState → Nat → SysState
  | 0, s, _ => s
  | fuel+1, s, t =>
    if t ∈ s.done ∨ t ∈ s.inprog then s
    else
      let s1 : SysState := { s with inprog := insertNew t s.inprog }
      let td1 : List Nat := (taskOf env t).fdeps.foldl
        (fun td f =>
          match targetRegister env f with
          | some d => addIfAbsent d td
          | none => td)
        (s1.tdeps.getD t [])
      let s2 : SysState := { s1 with tdeps := s1.tdeps.set t td1 }
      let r : SysState × List Nat := td1.foldl
        (fun acc d =>
          if d ∈ acc.1.done ∨ d ∈ acc.1.inprog then acc
          else (execCall env fuel acc.1 d, acc.2 ++ [d]))
        (s2, [])
      { r.1 with
          phase := r.1.phase.set t (Phase.waiting r.2)
          started := r.1.started.set t (some r.2) }

/-- The state right after `await task.exec()` was issued on the requested
task: the whole synchronous burst has run. -/
def init (env : Env) (root : Nat) : SysState :=
  execCall env (env.tasks.length + 1) (setupState env) root

/-- `doneTasks.add(this); inprogressTasks.delete(this)` plus leaving the
`exec` body — one synchronous stretch, hence one state change. -/
def markDone (s : SysState) (t : Nat) : SysState :=
  { s with
      done := insertNew t s.done
      inprog := s.inprog.erase t
      phase := s.phase.set t Phase.finished }

/-- `t`'s `Promise.all` resolution followed by the freshness checks:
enabled when every dependency `t` started is done.  `checkFileDeps`
computes freshness against the cache entries read at loop time and writes
every file dependency's current snapshot back; `targetsExist` and the
custom predicate contribute via the short-circuiting AND.  If up to date,
the same stretch marks `t` done, otherwise the action starts. -/
def stepCheck (env : Env) (s : SysState) (t : Nat) : Option SysState :=
  match s.phaseOf t with
  | Phase.waiting l =>
    if l.all (fun d => decide (d ∈ s.done)) then
      let td := taskOf env t
      let utd1 := td.fdeps.all
        (fun f => decide (manGet s.manifest t f = some (verOf s f)))
      let man1 := td.fdeps.foldl (fun m f => manSet m t f (verOf s f)) s.manifest
      let utd := utd1 && td.targets.all (fun f => decide (verOf s f ≠ 0))
        && td.utdRes
      if utd then some (markDone { s with manifest := man1 } t)
      else some { s with manifest := man1, phase := s.phase.set t Phase.acting }
    else none
  | _ => none

/-- `t`'s action runs: it observes the current versions of `t`'s file
dependencies and bumps the version of every target (producing new
content). -/
def stepAct (env : Env) (s : SysState) (t : Nat) : Option SysState :=
  match s.phaseOf t with
  | Phase.acting =>
    let td := taskOf env t
    let obs := td.fdeps.map (fun f => verOf s f)
    let ver1 := td.targets.foldl (fun v f => v.set f (v.getD f 0 + 1)) s.fileVer
    some { s with
        fileVer := ver1
        observed := s.observed.set t (some obs)
        actedOut := s.actedOut.set t (some (td.targets.map (fun f => ver1.getD f 0)))
        phase := s.phase.set t Phase.recalcing }
  | _ => none

/-- The post-action block of `Task.exec`: one snapshot-refresh promise per
file dependency is created but — as in the source, where the promises are
never pushed into `promisesInProgress` — `await Promise.all` awaits an
empty list, and the same synchronous stretch marks `t` done.  The created
promises are recorded in `pending`. -/
def stepRecalc (env : Env) (s : SysState) (t : Nat) : Option SysState :=
  match s.phaseOf t with
  | Phase.recalcing =>
    some (markDone
      { s with pending := s.pending ++ (taskOf env t).fdeps.map (fun f => (t, f)) } t)
  | _ => none

/-- One of the unawaited snapshot-refresh promises resolves:
`getFileData()` reads the file's state at resolution time and
`setFileData` writes it into the cache entry. -/
def stepService (s : SysState) (t f : Nat) : Option SysState :=
  if (t, f) ∈ s.pending then
    some { s with
        pending := s.pending.erase (t, f)
        manifest := manSet s.manifest t f (verOf s f) }
  else none

/-- Scheduler events after the initial synchronous burst. -/
inductive Ev where
  | check (t : Nat)
  | act (t : Nat)
  | recalc (t : Nat)
  | service (t : Nat) (f : Nat)
deriving DecidableEq, Repr

def stepFn (env : Env) (s : SysState) : Ev → Option SysState
  | Ev.check t => stepCheck env s t
  | Ev.act t => stepAct env s t
  | Ev.recalc t => stepRecalc env s t
  | Ev.service t f => stepService s t f

/-- Run a list of scheduler events; `none` when some event is not enabled.
The reachable states of an invocation are exactly the `run` results over
valid event lists. -/
def run (env : Env) : SysState → List Ev → Option SysState
  | s, [] => some s
  | s, e :: evs =>
    match stepFn env s e with
    | some s1 => run env s1 evs
    | none => none

/-- Number of times task `t`'s action runs in an event list. -/
def actCount (t : Nat) : List Ev → Nat
  | [] => 0
  | Ev.act u :: evs => (if u = t then 1 else 0) + actCount t evs
  | _ :: evs => actCount t evs

/-- Rank of a phase in the one-way life cycle of a task. -/
def phaseRank : Phase → Nat
  | Phase.idle => 0
  | Phase.waiting _ => 1
  | Phase.acting => 2
  | Phase.recalcing => 3
  | Phase.finished => 4

/-- Every dependency task `u` started is done. -/
def startedDone (s : SysState) (u : Nat) : Prop :=
  ∀ d ∈ (s.startedOf u).getD [], d ∈ s.done

/-- The done and in-progress sets are disjoint, and the in-progress list
holds no duplicates (it models a JS `Set`). -/
def JInv (s : SysState) : Prop :=
  (∀ x, x ∈ s.done → x ∉ s.inprog) ∧ s.inprog.Nodup

/-- Invariant tying a task's phase to the dependencies it started: the
`phase` and `started` tables are aligned, a suspended task's phase carries
exactly its started list, and a task whose checks or action are underway
(or whose action has already run) saw all its started dependencies done. -/
def StepInv (s : SysState) : Prop :=
  s.phase.length = s.started.length ∧
  (∀ u l, s.phaseOf u = Phase.waiting l → s.startedOf u = some l) ∧
  (∀ u, s.phaseOf u = Phase.acting → startedDone s u) ∧
  (∀ u, s.observedOf u ≠ none → startedDone s u)

/-- Shape of the state the synchronous burst produces: tables aligned,
no task beyond the `waiting` phase, waiting phases consistent with
`started`, in-progress a duplicate-free list. -/
def InitInv (s : SysState) : Prop :=
  s.phase.length = s.started.length ∧
  (∀ u, s.phaseOf u ≠ Phase.acting ∧ s.phaseOf u ≠ Phase.recalcing) ∧
  (∀ u l, s.phaseOf u = Phase.waiting l → s.startedOf u = some l) ∧
  s.inprog.Nodup

/-- The fields the synchronous burst never touches. -/
def QuietEq (a b : SysState) : Prop :=
  a.done = b.done ∧ a.observed = b.observed ∧ a.actedOut = b.actedOut ∧
  a.fileVer = b.fileVer ∧ a.manifest = b.manifest ∧ a.pending = b.pending

/-- One task whose single file dependency is also its own target
(an action that rewrites one of its inputs); the file initially exists at
version 1. -/
def env1 : Env :=
  { tasks := [{ tdeps := [], fdeps := [0], targets := [0], utdRes := false }]
    numFiles := 1
    initVer := [1] }

/-- The complete run of `env1`'s only task. -/
def trace1 : List Ev := [Ev.check 0, Ev.act 0, Ev.recalc 0]

/-- The final state of that run. -/
def s1end : SysState := (run env1 (init env1 0) trace1).getD default

/-- Diamond dependency graph: task 0 produces file 0; task 1 depends on
task 0; task 2 lists file 0 as a file dependency (and so implicitly
depends on task 0); task 3 — the requested task — depends on tasks 1
and 2.  File 0 is initially missing. -/
def env4 : Env :=
  { tasks :=
      [ { tdeps := [], fdeps := [], targets := [0], utdRes := false },
        { tdeps := [0], fdeps := [], targets := [], utdRes := false },
        { tdeps := [], fdeps := [0], targets := [], utdRes := false },
        { tdeps := [1, 2], fdeps := [], targets := [], utdRes := false } ],
    numFiles := 1
    initVer := [0] }

/-- A schedule of `env4` from `init env4 3` in which task 2 — which found
task 0 already in progress and therefore did not wait for it — checks and
acts before task 0's action has produced file 0.  Every step is a valid
transition of the machine, i.e. an I/O completion order the runtime
permits. -/
def trace4 : List Ev :=
  [Ev.check 2, Ev.act 2, Ev.recalc 2, Ev.check 0, Ev.act 0, Ev.recalc 0,
   Ev.check 1, Ev.act 1, Ev.recalc 1, Ev.check 3, Ev.act 3, Ev.recalc 3]

/-- The final state of that schedule. -/
def s4end : SysState := (run env4 (init env4 3) trace4).getD default

/-- The dependency-before-dependent property as claimed: in every
reachable state of an invocation of `root`, whenever task `tD` is the
registered producer of file `fF`, task `tT` lists `fF` as its `iT`-th file
dependency, `tD` has completed and both actions ran, the version of `fF`
the dependent's action observed is at least the version the producer's
action wrote. -/
def depObservesFresh (env : Env) (root : Nat) : Prop :=
  ∀ evs s tT tD fF iT iD obs out vObs vOut,
    run env (init env root) evs = some s →
    targetRegister env fF = some tD →
    (taskOf env tT).fdeps.get? iT = some fF →
    (taskOf env tD).targets.get? iD = some fF →
    tD ∈ s.done →
    s.observedOf tT = some obs →
    s.actedOut.getD tD none = some out →
    obs.get? iT = some vObs →
    out.get? iD = some vOut →
    vOut ≤ vObs

/-- One task with a single declared target, no file dependencies and the
default predicate; the target file is missing. -/
def envC6 : Env :=
  { tasks := [{ tdeps := [], fdeps := [], targets := [0], utdRes := false }]
    numFiles := 1
    initVer := [0] }

/-- One task with no file dependencies, no targets and the default
predicate. -/
def envC7 : Env :=
  { tasks := [{ tdeps := [], fdeps := [], targets := [], utdRes := false }]
    numFiles := 0
    initVer := [] }

/-!  Helper lemmas about list indexing and the set-like operations. -/

theorem getD_set_ne {α : Type} :
    ∀ (l : List α) (i j : Nat) (a d : α), i ≠ j →
      (l.set i a).getD j d = l.getD j d
  | [], _, _, _, _, _ => rfl
  | _ :: _, 0, 0, _, _, h => absurd rfl h
  | _ :: _, 0, _+1, _, _, _ => rfl
  | _ :: _, _+1, 0, _, _, _ => rfl
  | _ :: xs, i+1, j+1, a, d, h =>
      getD_set_ne xs i j a d (fun hh => h (congrArg Nat.succ hh))

theorem getD_set_self {α : Type} :
    ∀ (l : List α) (i : Nat) (a d : α), i < l.length →
      (l.set i a).getD i d = a
  | [], i, _, _, h => absurd h (Nat.not_lt_zero i)
  | _ :: _, 0, _, _, _ => rfl
  | _ :: xs, i+1, a, d, h => getD_set_self xs i a d (Nat.lt_of_succ_lt_succ h)

theorem getD_len_le {α : Type} :
    ∀ (l : List α) (i : Nat) (d : α), l.length ≤ i → l.getD i d = d
  | [], 0, _, _ => rfl
  | [], _+1, _, _ => rfl
  | _ :: _, 0, _, h => absurd h (by simp)
  | _ :: xs, i+1, d, h => getD_len_le xs i d (Nat.le_of_succ_le_succ h)

theorem getD_replicate_self {α : Type} :
    ∀ (n i : Nat) (a : α), (List.replicate n a).getD i a = a
  | 0, 0, _ => rfl
  | 0, _+1, _ => rfl
  | _+1, 0, _ => rfl
  | n+1, i+1, a => getD_replicate_self n i a

theorem mem_insertNew {x y : Nat} {l : List Nat} :
    y ∈ insertNew x l ↔ y = x ∨ y ∈ l := by
  unfold insertNew
  split
  · constructor
    · exact fun h => Or.inr h
    · intro h
      rcases h with h | h
      · subst h; assumption
      · exact h
  · simp [List.mem_cons]

theorem nodup_insertNew {x : Nat} {l : List Nat} (h : l.Nodup) :
    (insertNew x l).Nodup := by
  unfold insertNew
  split
  · exact h
  · exact List.nodup_cons.mpr ⟨by assumption, h⟩

theorem phaseOf_lt {s : SysState} {t : Nat} (h : s.phaseOf t ≠ Phase.idle) :
    t < s.phase.length := by
  by_contra hc
  push_neg at hc
  apply h
  unfold SysState.phaseOf
  exact getD_len_le _ _ _ hc

/-!  Shared facts about the up-to-date decision sequence. -/

theorem execUpToDate_fst (fdeps targets : List Nat)
    (files : Nat → FileState) (man : Nat → Option TrackedFileData)
    (pred : Bool) :
    (execUpToDate fdeps targets files man pred).1 =
      (checkFileDepsB fdeps files man && (targetsExist targets files && pred)) := by
  cases hcb : checkFileDepsB fdeps files man <;>
    cases hte : targetsExist targets files <;>
      simp [execUpToDate, upToDateChain, andThen, targetsExistL, hcb, hte]

theorem execUpToDate_log (fdeps targets : List Nat)
    (files : Nat → FileState) (man : Nat → Option TrackedFileData)
    (pred : Bool) :
    (execUpToDate fdeps targets files man pred).2 =
      fdeps.map CheckEv.fileDepCheck ++
      (if checkFileDepsB fdeps files man then
        targets.map CheckEv.existsProbe else []) ++
      (if checkFileDepsB fdeps files man && targetsExist targets files then
        [CheckEv.predicateCall] else []) := by
  cases hcb : checkFileDepsB fdeps files man <;>
    cases hte : targetsExist targets files <;>
      simp [execUpToDate, upToDateChain, andThen, targetsExistL, hcb, hte]

/-!  The claims. -/

/-- C2: `TrackedFile.isUpToDate` returns `false` when no cached snapshot
exists; when the live timestamp equals the cached one it returns `true`
without invoking the hash function; otherwise it returns `true` exactly
when the live content hash equals the cached hash (so a timestamp-only
change with identical content is still fresh, and an unchanged timestamp
never triggers a hash computation). -/
theorem isUpToDate_spec (f : FileState) (d : TrackedFileData) :
    isUpToDate f none = false ∧
    (getTimestamp f = d.timestamp →
      isUpToDate f (some d) = true ∧ hashCalls f (some d) = 0) ∧
    (getTimestamp f ≠ d.timestamp →
      (isUpToDate f (some d) = true ↔ getHash f = d.hash)) := by
  refine ⟨rfl, ?_, ?_⟩
  · intro h
    simp [isUpToDate, hashCalls, isUpToDateC, h]
  · intro h
    simp [isUpToDate, isUpToDateC, h, getHash]

/-- Witness for `isUpToDate_spec`: both the equal-timestamp fast path and
the differing-timestamp hash comparison at concrete inputs. -/
theorem isUpToDate_spec_wit :
    (isUpToDate ⟨true, "t0", "h0"⟩ (some ⟨"h0", "t0"⟩) = true ∧
      hashCalls ⟨true, "t0", "h0"⟩ (some ⟨"h0", "t0"⟩) = 0) ∧
    (isUpToDate ⟨true, "t1", "h0"⟩ (some ⟨"h0", "t0"⟩) = true ↔
      getHash ⟨true, "t1", "h0"⟩ = "h0") :=
  ⟨(isUpToDate_spec ⟨true, "t0", "h0"⟩ ⟨"h0", "t0"⟩).2.1 (by decide),
   (isUpToDate_spec ⟨true, "t1", "h0"⟩ ⟨"h0", "t0"⟩).2.2 (by decide)⟩

/-- C10: a missing tracked file yields the empty timestamp and empty hash
sentinels, and against a cached snapshot that recorded the file as missing
(empty timestamp) the still-missing file is fresh via the timestamp fast
path, with no hash computation. -/
theorem missingFile_fresh (f : FileState) (d : TrackedFileData) :
    f.present = false →
    getTimestamp f = "" ∧ getHash f = "" ∧
    (d.timestamp = "" →
      isUpToDate f (some d) = true ∧ hashCalls f (some d) = 0) := by
  intro hp
  refine ⟨?_, ?_, ?_⟩
  · simp [getTimestamp, hp]
  · simp [getHash, getHashC, hp]
  · intro ht
    simp [isUpToDate, hashCalls, isUpToDateC, getTimestamp, hp, ht]

/-- Witness for `missingFile_fresh` at a concrete missing file and a
cached missing-file snapshot. -/
theorem missingFile_fresh_wit :
    getTimestamp ⟨false, "x", "y"⟩ = "" ∧
    isUpToDate ⟨false, "x", "y"⟩ (some ⟨"zz", ""⟩) = true := by
  have h := missingFile_fresh ⟨false, "x", "y"⟩ ⟨"zz", ""⟩ (by decide)
  exact ⟨h.1, (h.2.2 (by decide)).1⟩

/-- C9: on a task name that is neither `list` nor registered, the entry
point logs the unknown-task error (no exception: the embedding stays a
total function and continues) and still performs the manifest save, after
the error report. -/
theorem unknownTask_saves_manifest (reg : List String) (nm : String) :
    nm ≠ "list" → nm ∉ reg →
    execCli reg nm =
      [ExecEv.manifestLoad, ExecEv.setupTasks,
       ExecEv.errorTaskNotFound nm, ExecEv.manifestSave] ∧
    ExecEv.manifestSave ∈ execCli reg nm := by
  intro h1 h2
  refine ⟨?_, ?_⟩ <;> simp [execCli, h1, h2]

/-- Witness for `unknownTask_saves_manifest` at a registry without the
requested name. -/
theorem unknownTask_saves_manifest_wit :
    execCli ["build"] "clean" =
      [ExecEv.manifestLoad, ExecEv.setupTasks,
       ExecEv.errorTaskNotFound "clean", ExecEv.manifestSave] :=
  (unknownTask_saves_manifest ["build"] "clean" (by decide) (by decide)).1

/-- C5: `actualUpToDate` is the AND of the three checks in the fixed order
file-dependency freshness, targets-exist, custom predicate, with
short-circuiting: the result equals the AND, the effect log shows a later
check runs only while every earlier one succeeded, and after a failed
file-dependency check there is no existence probe and no predicate
call. -/
theorem upToDateChecks_order (fdeps targets : List Nat)
    (files : Nat → FileState) (man : Nat → Option TrackedFileData)
    (pred : Bool) :
    (execUpToDate fdeps targets files man pred).1 =
      (checkFileDepsB fdeps files man && (targetsExist targets files && pred)) ∧
    (execUpToDate fdeps targets files man pred).2 =
      fdeps.map CheckEv.fileDepCheck ++
      (if checkFileDepsB fdeps files man then
        targets.map CheckEv.existsProbe else []) ++
      (if checkFileDepsB fdeps files man && targetsExist targets files then
        [CheckEv.predicateCall] else []) ∧
    (checkFileDepsB fdeps files man = false →
      (execUpToDate fdeps targets files man pred).1 = false ∧
      (execUpToDate fdeps targets files man pred).2 =
        fdeps.map CheckEv.fileDepCheck) := by
  refine ⟨execUpToDate_fst _ _ _ _ _, execUpToDate_log _ _ _ _ _, ?_⟩
  intro h
  rw [execUpToDate_fst, execUpToDate_log, h]
  simp

/-- Witness for `upToDateChecks_order`: a stale file dependency makes the
decision false with a log containing only the file-dependency check. -/
theorem upToDateChecks_order_wit :
    (execUpToDate [0] [5] (fun _ => ⟨true, "t", "h"⟩) (fun _ => none) true).1
      = false ∧
    (execUpToDate [0] [5] (fun _ => ⟨true, "t", "h"⟩) (fun _ => none) true).2
      = [0].map CheckEv.fileDepCheck :=
  (upToDateChecks_order [0] [5] (fun _ => ⟨true, "t", "h"⟩)
    (fun _ => none) true).2.2 (by decide)

/-- C6: `targetsExist` passes exactly when every declared target exists;
with fresh file dependencies and a missing target the up-to-date decision
is false; and in that situation a task's check step leaves it in the
`acting` phase with the action step enabled. -/
theorem missingTarget_forces_rerun (fdeps targets : List Nat)
    (files : Nat → FileState) (man : Nat → Option TrackedFileData)
    (pred : Bool) (env : Env) (s s' : SysState) (t : Nat) :
    (targetsExist targets files = true ↔
      ∀ f ∈ targets, fexists (files f) = true) ∧
    (checkFileDepsB fdeps files man = true →
      (∃ f ∈ targets, fexists (files f) = false) →
      (execUpToDate fdeps targets files man pred).1 = false) ∧
    (stepCheck env s t = some s' →
      (taskOf env t).fdeps.all
        (fun f => decide (manGet s.manifest t f = some (verOf s f))) = true →
      (∃ f ∈ (taskOf env t).targets, verOf s f = 0) →
      s'.phaseOf t = Phase.acting ∧ (stepAct env s' t).isSome = true) := by
  have hchar : targetsExist targets files = true ↔
      ∀ f ∈ targets, fexists (files f) = true := by
    simp [targetsExist, List.any_map, Function.comp]
  refine ⟨hchar, ?_, ?_⟩
  · intro hcb hex
    have hte : targetsExist targets files = false := by
      cases h : targetsExist targets files
      · rfl
      · obtain ⟨f0, hmem, hf0⟩ := hex
        have := hchar.mp h f0 hmem
        rw [this] at hf0
        exact absurd hf0 (by simp)
    rw [execUpToDate_fst, hcb, hte]
    simp
  · intro hstep hfd hex
    have hall : (taskOf env t).targets.all
        (fun f => decide (verOf s f ≠ 0)) = false := by
      cases h : (taskOf env t).targets.all (fun f => decide (verOf s f ≠ 0))
      · rfl
      · obtain ⟨f0, hmem, hf0⟩ := hex
        have := List.all_eq_true.mp h f0 hmem
        simp at this
        exact absurd hf0 this
    simp only [stepCheck] at hstep
    split at hstep
    case _ l heq =>
      split at hstep
      case _ =>
        rw [hfd, hall] at hstep
        simp at hstep
        have hlt : t < s.phase.length :=
          phaseOf_lt (by rw [heq]; intro hh; cases hh)
        have hph : s'.phaseOf t = Phase.acting := by
          rw [← hstep]
          unfold SysState.phaseOf
          exact getD_set_self _ _ _ _ hlt
        refine ⟨hph, ?_⟩
        simp [stepAct, hph]
      case _ => exact absurd hstep (by simp)
    case _ => exact absurd hstep (by simp)

/-- Witness for `missingTarget_forces_rerun`: a concrete missing target
forces the decision false, and in `envC6` the check step on the sole task
(whose target file is missing) ends in the `acting` phase. -/
theorem missingTarget_forces_rerun_wit :
    (execUpToDate [] [7] (fun _ => ⟨false, "", ""⟩) (fun _ => none) true).1
      = false ∧
    ((stepCheck envC6 (init envC6 0) 0).getD default).phaseOf 0
      = Phase.acting := by
  have h := missingTarget_forces_rerun [] [7] (fun _ => ⟨false, "", ""⟩)
    (fun _ => none) true envC6 (init envC6 0)
    ((stepCheck envC6 (init envC6 0) 0).getD default) 0
  exact ⟨h.2.1 rfl ⟨7, by decide, rfl⟩,
    (h.2.2 (by decide) (by decide) ⟨0, by decide, by decide⟩).1⟩

/-- C7: a task constructed without a custom predicate gets `runAlways`,
which returns `false` unconditionally; with no file dependencies and no
targets the up-to-date decision is therefore false, and such a task's
check step always moves it to the `acting` phase — the action runs on
every invocation. -/
theorem defaultPredicate_rerun (p : TaskParams) (files : Nat → FileState)
    (man : Nat → Option TrackedFileData) (env : Env) (s s' : SysState)
    (t : Nat) :
    (p.uptodate = none →
      (makeTask p).uptodate = runAlways ∧ (makeTask p).uptodate () = false) ∧
    (execUpToDate [] [] files man false).1 = false ∧
    (stepCheck env s t = some s' →
      (taskOf env t).fdeps = [] → (taskOf env t).targets = [] →
      (taskOf env t).utdRes = false →
      s'.phaseOf t = Phase.acting ∧ (stepAct env s' t).isSome = true) := by
  refine ⟨?_, ?_, ?_⟩
  · intro h
    simp [makeTask, h, runAlways]
  · rw [execUpToDate_fst]
    simp
  · intro hstep hfd htg hres
    simp only [stepCheck] at hstep
    split at hstep
    case _ l heq =>
      split at hstep
      case _ =>
        rw [hfd, htg, hres] at hstep
        simp at hstep
        have hlt : t < s.phase.length :=
          phaseOf_lt (by rw [heq]; intro hh; cases hh)
        have hph : s'.phaseOf t = Phase.acting := by
          rw [← hstep]
          unfold SysState.phaseOf
          exact getD_set_self _ _ _ _ hlt
        refine ⟨hph, ?_⟩
        simp [stepAct, hph]
      case _ => exact absurd hstep (by simp)
    case _ => exact absurd hstep (by simp)

/-- Witness for `defaultPredicate_rerun`: a task built with all defaults
has the constant-false predicate, and in `envC7` the check step on the
sole declaration-free task ends in the `acting` phase. -/
theorem defaultPredicate_rerun_wit :
    (makeTask { name := "t0" }).uptodate () = false ∧
    ((stepCheck envC7 (init envC7 0) 0).getD default).phaseOf 0
      = Phase.acting := by
  have h := defaultPredicate_rerun { name := "t0" }
    (fun _ => ⟨true, "", ""⟩) (fun _ => none) envC7 (init envC7 0)
    ((stepCheck envC7 (init envC7 0) 0).getD default) 0
  exact ⟨(h.1 rfl).2, (h.2.2 (by decide) (by decide) (by decide) (by decide)).1⟩

/-!  Facts about the synchronous burst `execCall` and the initial state. -/

theorem foldl_inv {σ : Type} (P : σ → Prop)
    (g : σ × List Nat → Nat → σ × List Nat)
    (hg : ∀ acc d, P acc.1 → P ((g acc d).1)) :
    ∀ (l : List Nat) (acc : σ × List Nat), P acc.1 → P ((l.foldl g acc).1)
  | [], _, h => h
  | d :: ds, acc, h => foldl_inv P g hg ds (g acc d) (hg acc d h)

theorem quietEq_refl (s : SysState) : QuietEq s s :=
  ⟨rfl, rfl, rfl, rfl, rfl, rfl⟩

theorem quietEq_trans {a b c : SysState} (h1 : QuietEq a b) (h2 : QuietEq b c) :
    QuietEq a c :=
  ⟨h1.1.trans h2.1, h1.2.1.trans h2.2.1, h1.2.2.1.trans h2.2.2.1,
   h1.2.2.2.1.trans h2.2.2.2.1, h1.2.2.2.2.1.trans h2.2.2.2.2.1,
   h1.2.2.2.2.2.trans h2.2.2.2.2.2⟩

theorem getD_set_or {α : Type} (p : List α) (t u : Nat) (X d : α) :
    (p.set t X).getD u d = p.getD u d ∨
    ((p.set t X).getD u d = X ∧ u = t) := by
  by_cases hu : u = t
  · subst hu
    by_cases hlt : u < p.length
    · exact Or.inr ⟨getD_set_self _ _ _ _ hlt, rfl⟩
    · push_neg at hlt
      exact Or.inl (by
        rw [getD_len_le _ _ _ (by simpa using hlt), getD_len_le _ _ _ hlt])
  · exact Or.inl (getD_set_ne _ _ _ _ _ (fun hh => hu hh.symm))

theorem execCall_quietEq (env : Env) :
    ∀ (fuel : Nat) (s : SysState) (t : Nat),
      QuietEq (execCall env fuel s t) s := by
  intro fuel
  induction fuel with
  | zero => intro s t; exact quietEq_refl s
  | succ fuel ih =>
    intro s t
    simp only [execCall]
    split
    · exact quietEq_refl s
    · refine quietEq_trans (⟨rfl, rfl, rfl, rfl, rfl, rfl⟩ : QuietEq _ _) ?_
      apply foldl_inv (fun x => QuietEq x s)
      · intro acc d hacc
        dsimp only
        split
        · exact hacc
        · exact quietEq_trans (ih acc.1 d) hacc
      · exact ⟨rfl, rfl, rfl, rfl, rfl, rfl⟩

theorem initInv_prelude {s : SysState} (t : Nat) (td : List Nat)
    (h : InitInv s) :
    InitInv { s with inprog := insertNew t s.inprog, tdeps := s.tdeps.set t td } := by
  obtain ⟨hlen, hnoact, hwait, hnd⟩ := h
  exact ⟨hlen, hnoact, hwait, nodup_insertNew hnd⟩

theorem initInv_finish {r : SysState} (t : Nat) (l2 : List Nat) (h : InitInv r) :
    InitInv { r with phase := r.phase.set t (Phase.waiting l2),
                     started := r.started.set t (some l2) } := by
  obtain ⟨hlen, hnoact, hwait, hnd⟩ := h
  simp only [InitInv, SysState.phaseOf, SysState.startedOf] at *
  refine ⟨by simp [hlen], ?_, ?_, hnd⟩
  · intro u
    rcases getD_set_or r.phase t u (Phase.waiting l2) Phase.idle with hc | ⟨hc, rfl⟩
    · rw [hc]
      exact hnoact u
    · rw [hc]
      exact ⟨by simp, by simp⟩
  · intro u l hul
    by_cases hu : u = t
    · subst hu
      by_cases hlt : u < r.phase.length
      · have hph := getD_set_self r.phase u (Phase.waiting l2) Phase.idle hlt
        rw [hph] at hul
        cases hul
        rw [getD_set_self r.started u (some l2) none (hlen ▸ hlt)]
      · have hidle : (r.phase.set u (Phase.waiting l2)).getD u Phase.idle
            = Phase.idle := by
          push_neg at hlt
          exact getD_len_le _ _ _ (by simpa using hlt)
        rw [hidle] at hul
        cases hul
    · rw [getD_set_ne r.phase t u (Phase.waiting l2) Phase.idle
        (fun hh => hu hh.symm)] at hul
      rw [getD_set_ne r.started t u (some l2) none (fun hh => hu hh.symm)]
      exact hwait u l hul

theorem execCall_initInv (env : Env) :
    ∀ (fuel : Nat) (s : SysState) (t : Nat),
      InitInv s → InitInv (execCall env fuel s t) := by
  intro fuel
  induction fuel with
  | zero => intro s t h; exact h
  | succ fuel ih =>
    intro s t h
    simp only [execCall]
    split
    · exact h
    · apply initInv_finish
      apply foldl_inv InitInv
      · intro acc d hacc
        dsimp only
        split
        · exact hacc
        · exact ih acc.1 d hacc
      · exact initInv_prelude _ _ h

theorem setupState_initInv (env : Env) : InitInv (setupState env) := by
  have hidle : ∀ u, (setupState env).phaseOf u = Phase.idle := by
    intro u
    show (List.replicate env.tasks.length Phase.idle).getD u Phase.idle = _
    exact getD_replicate_self _ _ _
  refine ⟨by simp [setupState], ?_, ?_, List.nodup_nil⟩
  · intro u
    rw [hidle u]
    exact ⟨by simp, by simp⟩
  · intro u l h
    rw [hidle u] at h
    cases h

theorem init_initInv (env : Env) (root : Nat) : InitInv (init env root) :=
  execCall_initInv env _ _ root (setupState_initInv env)

theorem init_done_nil (env : Env) (root : Nat) : (init env root).done = [] :=
  (execCall_quietEq env _ _ root).1

theorem init_observed_none (env : Env) (root : Nat) :
    ∀ u, (init env root).observedOf u = none := by
  intro u
  unfold SysState.observedOf init
  rw [(execCall_quietEq env _ _ root).2.1]
  show (List.replicate env.tasks.length none).getD u none = none
  exact getD_replicate_self _ _ _

/-!  Facts about the scheduler steps. -/

theorem step_shape {env : Env} {s s' : SysState} {e : Ev}
    (h : stepFn env s e = some s') :
    (∃ t m, (∃ l, s.phaseOf t = Phase.waiting l ∧ ∀ d ∈ l, d ∈ s.done) ∧
       s' = markDone { s with manifest := m } t) ∨
    (∃ t m, (∃ l, s.phaseOf t = Phase.waiting l ∧ ∀ d ∈ l, d ∈ s.done) ∧
       s' = { s with manifest := m, phase := s.phase.set t Phase.acting }) ∨
    (∃ t v o a, s.phaseOf t = Phase.acting ∧
       s' = { s with fileVer := v, observed := s.observed.set t (some o),
                     actedOut := s.actedOut.set t (some a),
                     phase := s.phase.set t Phase.recalcing }) ∨
    (∃ t pd, s.phaseOf t = Phase.recalcing ∧
       s' = markDone { s with pending := pd } t) ∨
    (∃ pd m, s' = { s with pending := pd, manifest := m }) := by
  cases e with
  | check t =>
    simp only [stepFn, stepCheck] at h
    split at h
    case _ l heq =>
      split at h
      case _ hgate =>
        have hld : ∀ d ∈ l, d ∈ s.done := by
          intro d hd
          have := List.all_eq_true.mp hgate d hd
          simpa using this
        split at h
        case _ =>
          exact Or.inl ⟨t, _, ⟨l, heq, hld⟩, (Option.some.inj h).symm⟩
        case _ =>
          exact Or.inr (Or.inl ⟨t, _, ⟨l, heq, hld⟩, (Option.some.inj h).symm⟩)
      case _ => exact absurd h (by simp)
    case _ => exact absurd h (by simp)
  | act t =>
    simp only [stepFn, stepAct] at h
    split at h
    case _ heq =>
      exact Or.inr (Or.inr (Or.inl ⟨t, _, _, _, heq, (Option.some.inj h).symm⟩))
    case _ => exact absurd h (by simp)
  | recalc t =>
    simp only [stepFn, stepRecalc] at h
    split at h
    case _ heq =>
      exact Or.inr (Or.inr (Or.inr (Or.inl ⟨t, _, heq, (Option.some.inj h).symm⟩)))
    case _ => exact absurd h (by simp)
  | service t f =>
    simp only [stepFn, stepService] at h
    split at h
    case _ =>
      exact Or.inr (Or.inr (Or.inr (Or.inr ⟨_, _, (Option.some.inj h).symm⟩)))
    case _ => exact absurd h (by simp)

theorem step_done_mono {env : Env} {s s' : SysState} {e : Ev}
    (h : stepFn env s e = some s') : ∀ x, x ∈ s.done → x ∈ s'.done := by
  intro x hx
  rcases step_shape h with
    ⟨t, m, _, rfl⟩ | ⟨t, m, _, rfl⟩ | ⟨t, v, o, a, _, rfl⟩ |
    ⟨t, pd, _, rfl⟩ | ⟨pd, m, rfl⟩
  · exact mem_insertNew.mpr (Or.inr hx)
  · exact hx
  · exact hx
  · exact mem_insertNew.mpr (Or.inr hx)
  · exact hx

theorem step_union_mono {env : Env} {s s' : SysState} {e : Ev}
    (h : stepFn env s e = some s') :
    ∀ x, x ∈ s.done ∨ x ∈ s.inprog → x ∈ s'.done ∨ x ∈ s'.inprog := by
  intro x hx
  rcases step_shape h with
    ⟨t, m, _, rfl⟩ | ⟨t, m, _, rfl⟩ | ⟨t, v, o, a, _, rfl⟩ |
    ⟨t, pd, _, rfl⟩ | ⟨pd, m, rfl⟩
  · rcases hx with hx | hx
    · exact Or.inl (mem_insertNew.mpr (Or.inr hx))
    · by_cases hxt : x = t
      · exact Or.inl (mem_insertNew.mpr (Or.inl hxt))
      · exact Or.inr ((List.mem_erase_of_ne hxt).mpr hx)
  · exact hx
  · exact hx
  · rcases hx with hx | hx
    · exact Or.inl (mem_insertNew.mpr (Or.inr hx))
    · by_cases hxt : x = t
      · exact Or.inl (mem_insertNew.mpr (Or.inl hxt))
      · exact Or.inr ((List.mem_erase_of_ne hxt).mpr hx)
  · exact hx

theorem step_rank_mono {env : Env} {s s' : SysState} {e : Ev}
    (h : stepFn env s e = some s') (u : Nat) :
    phaseRank (s.phaseOf u) ≤ phaseRank (s'.phaseOf u) := by
  rcases step_shape h with
    ⟨t, m, ⟨l, heq, _⟩, rfl⟩ | ⟨t, m, ⟨l, heq, _⟩, rfl⟩ |
    ⟨t, v, o, a, heq, rfl⟩ | ⟨t, pd, heq, rfl⟩ | ⟨pd, m, rfl⟩
  · show phaseRank (s.phaseOf u) ≤
      phaseRank ((s.phase.set t Phase.finished).getD u Phase.idle)
    rcases getD_set_or s.phase t u Phase.finished Phase.idle with hc | ⟨hc, rfl⟩
    · rw [hc]; exact Nat.le_refl _
    · rw [hc, heq]
      simp [phaseRank]
  · show phaseRank (s.phaseOf u) ≤
      phaseRank ((s.phase.set t Phase.acting).getD u Phase.idle)
    rcases getD_set_or s.phase t u Phase.acting Phase.idle with hc | ⟨hc, rfl⟩
    · rw [hc]; exact Nat.le_refl _
    · rw [hc, heq]
      simp [phaseRank]
  · show phaseRank (s.phaseOf u) ≤
      phaseRank ((s.phase.set t Phase.recalcing).getD u Phase.idle)
    rcases getD_set_or s.phase t u Phase.recalcing Phase.idle with hc | ⟨hc, rfl⟩
    · rw [hc]; exact Nat.le_refl _
    · rw [hc, heq]
      simp [phaseRank]
  · show phaseRank (s.phaseOf u) ≤
      phaseRank ((s.phase.set t Phase.finished).getD u Phase.idle)
    rcases getD_set_or s.phase t u Phase.finished Phase.idle with hc | ⟨hc, rfl⟩
    · rw [hc]; exact Nat.le_refl _
    · rw [hc, heq]
      simp [phaseRank]
  · exact Nat.le_refl _

theorem step_JInv {env : Env} {s s' : SysState} {e : Ev}
    (h : stepFn env s e = some s') (hJ : JInv s) : JInv s' := by
  obtain ⟨hdis, hnd⟩ := hJ
  rcases step_shape h with
    ⟨t, m, _, rfl⟩ | ⟨t, m, _, rfl⟩ | ⟨t, v, o, a, _, rfl⟩ |
    ⟨t, pd, _, rfl⟩ | ⟨pd, m, rfl⟩
  · refine ⟨?_, hnd.erase t⟩
    intro x hx hmem
    rcases mem_insertNew.mp hx with rfl | hx
    · exact ((List.Nodup.mem_erase_iff hnd).mp hmem).1 rfl
    · exact hdis x hx (List.mem_of_mem_erase hmem)
  · exact ⟨hdis, hnd⟩
  · exact ⟨hdis, hnd⟩
  · refine ⟨?_, hnd.erase t⟩
    intro x hx hmem
    rcases mem_insertNew.mp hx with rfl | hx
    · exact ((List.Nodup.mem_erase_iff hnd).mp hmem).1 rfl
    · exact hdis x hx (List.mem_of_mem_erase hmem)
  · exact ⟨hdis, hnd⟩

theorem step_StepInv {env : Env} {s s' : SysState} {e : Ev}
    (h : stepFn env s e = some s') (hI : StepInv s) : StepInv s' := by
  have hdm := step_done_mono h
  obtain ⟨hlen, hwait, hact, hobs⟩ := hI
  rcases step_shape h with
    ⟨t, m, ⟨l, heq, hld⟩, rfl⟩ | ⟨t, m, ⟨l, heq, hld⟩, rfl⟩ |
    ⟨t, v, o, a, heq, rfl⟩ | ⟨t, pd, heq, rfl⟩ | ⟨pd, m, rfl⟩
  · refine ⟨?_, ?_, ?_, ?_⟩
    · show (s.phase.set t Phase.finished).length = s.started.length
      simp [hlen]
    · intro u l' hul
      have hul' : (s.phase.set t Phase.finished).getD u Phase.idle
          = Phase.waiting l' := hul
      rcases getD_set_or s.phase t u Phase.finished Phase.idle with hc | ⟨hc, rfl⟩
      · rw [hc] at hul'
        exact hwait u l' hul'
      · rw [hc] at hul'
        cases hul'
    · intro u hu
      have hu' : (s.phase.set t Phase.finished).getD u Phase.idle
          = Phase.acting := hu
      rcases getD_set_or s.phase t u Phase.finished Phase.idle with hc | ⟨hc, rfl⟩
      · rw [hc] at hu'
        have hsd := hact u hu'
        intro d hd
        exact hdm d (hsd d hd)
      · rw [hc] at hu'
        cases hu'
    · intro u hne
      have hsd := hobs u hne
      intro d hd
      exact hdm d (hsd d hd)
  · refine ⟨?_, ?_, ?_, ?_⟩
    · show (s.phase.set t Phase.acting).length = s.started.length
      simp [hlen]
    · intro u l' hul
      have hul' : (s.phase.set t Phase.acting).getD u Phase.idle
          = Phase.waiting l' := hul
      rcases getD_set_or s.phase t u Phase.acting Phase.idle with hc | ⟨hc, rfl⟩
      · rw [hc] at hul'
        exact hwait u l' hul'
      · rw [hc] at hul'
        cases hul'
    · intro u hu
      have hu' : (s.phase.set t Phase.acting).getD u Phase.idle
          = Phase.acting := hu
      rcases getD_set_or s.phase t u Phase.acting Phase.idle with hc | ⟨hc, rfl⟩
      · rw [hc] at hu'
        have hsd := hact u hu'
        intro d hd
        exact hdm d (hsd d hd)
      · have hst : SysState.startedOf s u = some l := hwait u l heq
        intro d hd
        have hd2 : d ∈ (SysState.startedOf s u).getD [] := hd
        rw [hst] at hd2
        exact hdm d (hld d hd2)
    · intro u hne
      have hsd := hobs u hne
      intro d hd
      exact hdm d (hsd d hd)
  · refine ⟨?_, ?_, ?_, ?_⟩
    · show (s.phase.set t Phase.recalcing).length = s.started.length
      simp [hlen]
    · intro u l' hul
      have hul' : (s.phase.set t Phase.recalcing).getD u Phase.idle
          = Phase.waiting l' := hul
      rcases getD_set_or s.phase t u Phase.recalcing Phase.idle with hc | ⟨hc, rfl⟩
      · rw [hc] at hul'
        exact hwait u l' hul'
      · rw [hc] at hul'
        cases hul'
    · intro u hu
      have hu' : (s.phase.set t Phase.recalcing).getD u Phase.idle
          = Phase.acting := hu
      rcases getD_set_or s.phase t u Phase.recalcing Phase.idle with hc | ⟨hc, rfl⟩
      · rw [hc] at hu'
        have hsd := hact u hu'
        intro d hd
        exact hdm d (hsd d hd)
      · rw [hc] at hu'
        cases hu'
    · intro u hne
      have hne' : (s.observed.set t (some o)).getD u none ≠ none := hne
      rcases getD_set_or s.observed t u (some o) none with hc | ⟨hc, rfl⟩
      · rw [hc] at hne'
        have hsd := hobs u hne'
        intro d hd
        exact hdm d (hsd d hd)
      · have hsd := hact u heq
        intro d hd
        exact hdm d (hsd d hd)
  · refine ⟨?_, ?_, ?_, ?_⟩
    · show (s.phase.set t Phase.finished).length = s.started.length
      simp [hlen]
    · intro u l' hul
      have hul' : (s.phase.set t Phase.finished).getD u Phase.idle
          = Phase.waiting l' := hul
      rcases getD_set_or s.phase t u Phase.finished Phase.idle with hc | ⟨hc, rfl⟩
      · rw [hc] at hul'
        exact hwait u l' hul'
      · rw [hc] at hul'
        cases hul'
    · intro u hu
      have hu' : (s.phase.set t Phase.finished).getD u Phase.idle
          = Phase.acting := hu
      rcases getD_set_or s.phase t u Phase.finished Phase.idle with hc | ⟨hc, rfl⟩
      · rw [hc] at hu'
        have hsd := hact u hu'
        intro d hd
        exact hdm d (hsd d hd)
      · rw [hc] at hu'
        cases hu'
    · intro u hne
      have hsd := hobs u hne
      intro d hd
      exact hdm d (hsd d hd)
  · exact ⟨hlen, hwait, hact, hobs⟩

/-!  Lifting the step facts along whole schedules. -/

theorem run_pres {env : Env} (P : SysState → Prop)
    (hP : ∀ s e s', stepFn env s e = some s' → P s → P s') :
    ∀ (evs : List Ev) (s s' : SysState), run env s evs = some s' → P s → P s' := by
  intro evs
  induction evs with
  | nil =>
    intro s s' h hp
    cases Option.some.inj h
    exact hp
  | cons e evs ih =>
    intro s s' h hp
    simp only [run] at h
    split at h
    case _ s1 hst => exact ih s1 s' h (hP s e s1 hst hp)
    case _ => exact absurd h (by simp)

theorem run_done_mono {env : Env} {s s' : SysState} {evs : List Ev}
    (h : run env s evs = some s') : ∀ x, x ∈ s.done → x ∈ s'.done :=
  fun x hx =>
    run_pres (fun u => x ∈ u.done)
      (fun _ _ _ hs hp => step_done_mono hs x hp) evs s s' h hx

theorem run_union_mono {env : Env} {s s' : SysState} {evs : List Ev}
    (h : run env s evs = some s') :
    ∀ x, x ∈ s.done ∨ x ∈ s.inprog → x ∈ s'.done ∨ x ∈ s'.inprog :=
  fun x hx =>
    run_pres (fun u => x ∈ u.done ∨ x ∈ u.inprog)
      (fun _ _ _ hs hp => step_union_mono hs x hp) evs s s' h hx

theorem init_StepInv (env : Env) (root : Nat) : StepInv (init env root) := by
  obtain ⟨hlen, hnoact, hwait, hnd⟩ := init_initInv env root
  refine ⟨hlen, hwait, ?_, ?_⟩
  · intro u hu
    exact absurd hu (hnoact u).1
  · intro u hne
    exact absurd (init_observed_none env root u) hne

theorem init_JInv (env : Env) (root : Nat) : JInv (init env root) := by
  refine ⟨?_, (init_initInv env root).2.2.2⟩
  intro x hx
  rw [init_done_nil] at hx
  exact absurd hx (List.not_mem_nil x)

theorem stepAct_pre {env : Env} {s s1 : SysState} {t : Nat}
    (h : stepAct env s t = some s1) : s.phaseOf t = Phase.acting := by
  simp only [stepAct] at h
  split at h
  case _ heq => exact heq
  case _ => exact absurd h (by simp)

theorem stepAct_post {env : Env} {s s1 : SysState} {t : Nat}
    (h : stepAct env s t = some s1) : s1.phaseOf t = Phase.recalcing := by
  have hpre := stepAct_pre h
  simp only [stepAct] at h
  split at h
  case _ heq =>
    cases Option.some.inj h
    show (s.phase.set t Phase.recalcing).getD t Phase.idle = Phase.recalcing
    exact getD_set_self _ _ _ _ (phaseOf_lt (by rw [hpre]; simp))
  case _ => exact absurd h (by simp)

theorem run_actCount_zero {env : Env} {t : Nat} :
    ∀ (evs : List Ev) (s s' : SysState), run env s evs = some s' →
      3 ≤ phaseRank (s.phaseOf t) → actCount t evs = 0 := by
  intro evs
  induction evs with
  | nil => intro s s' _ _; rfl
  | cons e evs ih =>
    intro s s' h h3
    simp only [run] at h
    split at h
    case _ s1 hst =>
      have h3' : 3 ≤ phaseRank (s1.phaseOf t) :=
        le_trans h3 (step_rank_mono hst t)
      have hrest := ih s1 s' h h3'
      cases e with
      | act u =>
        by_cases hu : u = t
        · subst hu
          exfalso
          have hpre : s.phaseOf u = Phase.acting := stepAct_pre hst
          rw [hpre] at h3
          simp [phaseRank] at h3
        · simp [actCount, hu, hrest]
      | check u => simpa [actCount] using hrest
      | recalc u => simpa [actCount] using hrest
      | service u f => simpa [actCount] using hrest
    case _ => exact absurd h (by simp)

/-- C3: `Task.exec` on a task that is already done, or already in
progress, returns with the state unchanged (no side effects at all), and
consequently in any scheduled invocation — in particular one whose
requested task has two independent dependents of some shared task — each
task's action runs at most once. -/
theorem execOnce_spec :
    (∀ (env : Env) (fuel : Nat) (s : SysState) (t : Nat),
      t ∈ s.done ∨ t ∈ s.inprog → execCall env fuel s t = s) ∧
    (∀ (env : Env) (evs : List Ev) (s s' : SysState) (t : Nat),
      run env s evs = some s' → actCount t evs ≤ 1) := by
  constructor
  · intro env fuel s t h
    cases fuel with
    | zero => rfl
    | succ fuel =>
      simp only [execCall]
      rw [if_pos h]
  · intro env evs
    induction evs with
    | nil => intro s s' t _; exact Nat.zero_le 1
    | cons e evs ih =>
      intro s s' t h
      simp only [run] at h
      split at h
      case _ s1 hst =>
        cases e with
        | act u =>
          by_cases hu : u = t
          · subst hu
            have hpost : s1.phaseOf u = Phase.recalcing := stepAct_post hst
            have hz : actCount u evs = 0 :=
              run_actCount_zero evs s1 s' h (by rw [hpost]; simp [phaseRank])
            simp [actCount, hz]
          · have hrest := ih s1 s' t h
            simpa [actCount, hu] using hrest
        | check u =>
          have hrest := ih s1 s' t h
          simpa [actCount] using hrest
        | recalc u =>
          have hrest := ih s1 s' t h
          simpa [actCount] using hrest
        | service u f =>
          have hrest := ih s1 s' t h
          simpa [actCount] using hrest
      case _ => exact absurd h (by simp)

/-- Witness for `execOnce_spec`: calling `exec` again on the already-done
task of `env1` changes nothing, and its action ran once in `trace1`. -/
theorem execOnce_spec_wit :
    execCall env1 3 { (default : SysState) with done := [0] } 0
      = { (default : SysState) with done := [0] } ∧
    actCount 0 trace1 ≤ 1 :=
  ⟨execOnce_spec.1 env1 3 { (default : SysState) with done := [0] } 0
      (Or.inl (by decide)),
   execOnce_spec.2 env1 trace1 (init env1 0) s1end 0 (by decide)⟩

/-- C8: in every reachable state of an invocation the done and
in-progress sets are disjoint, and along any further schedule the done
set and the done-or-in-progress union only grow — no task ever leaves the
done set. -/
theorem doneInprogress_invariant (env : Env) (root : Nat)
    (evs evs2 : List Ev) (s1 s2 : SysState) :
    run env (init env root) evs = some s1 →
    run env s1 evs2 = some s2 →
    (∀ x, x ∈ s1.done → x ∉ s1.inprog) ∧
    (∀ x, x ∈ s1.done → x ∈ s2.done) ∧
    (∀ x, x ∈ s1.done ∨ x ∈ s1.inprog → x ∈ s2.done ∨ x ∈ s2.inprog) := by
  intro h1 h2
  have hJ : JInv s1 :=
    run_pres JInv (fun _ _ _ hs => step_JInv hs) evs _ s1 h1 (init_JInv env root)
  exact ⟨hJ.1, fun x hx => run_done_mono h2 x hx,
    fun x hx => run_union_mono h2 x hx⟩

/-- Witness for `doneInprogress_invariant` at the complete `env1` run. -/
theorem doneInprogress_invariant_wit :
    (0 : Nat) ∉ s1end.inprog ∧ (0 : Nat) ∈ s1end.done := by
  have h := doneInprogress_invariant env1 0 trace1 [] s1end s1end
    (by decide) (by decide)
  exact ⟨h.1 0 (by decide), h.2.1 0 (by decide)⟩

/-- C4 counterexample: in the diamond `env4` the schedule `trace4` is a
valid execution in which the dependent task 2 — which found producer
task 0 already in progress and therefore proceeded without waiting —
observes file 0 at version 0 while task 0 completes with output
version 1: the claimed property is false on the code. -/
theorem depObservesFresh_cex : ¬ depObservesFresh env4 3 := by
  intro h
  have hinst := h trace4 s4end 2 0 0 0 0 [0] [1] 0 1 (by decide) (by decide)
    (by decide) (by decide) (by decide) (by decide) (by decide) (by decide)
    (by decide)
  exact absurd hinst (by decide)

/-- C4 (amended): a dependency that the dependent's own
`execDependencies` started — one that was neither done nor in progress
when the dependent resolved its dependencies — is done before the
dependent's action runs, so its completed output is in place; only a
dependency already in progress is not waited for. -/
theorem startedDeps_done_before_action (env : Env) (root : Nat)
    (evs : List Ev) (s : SysState) (t d : Nat) (l : List Nat) :
    run env (init env root) evs = some s →
    s.startedOf t = some l → d ∈ l → s.observedOf t ≠ none →
    d ∈ s.done := by
  intro hr hst hd hobs
  have hInv : StepInv s :=
    run_pres StepInv (fun _ _ _ hs => step_StepInv hs) evs _ s hr
      (init_StepInv env root)
  have hsd := hInv.2.2.2 t hobs
  apply hsd
  rw [hst]
  exact hd

/-- Witness for `startedDeps_done_before_action`: in the diamond run,
task 1 started task 0 and task 1's action ran, hence task 0 is done. -/
theorem startedDeps_done_before_action_wit : (0 : Nat) ∈ s4end.done :=
  startedDeps_done_before_action env4 3 trace4 s4end 1 0 [0] (by decide)
    (by decide) (by decide) (by decide)

/-- C1 (code bug evaluation): running `env1`'s task — whose action
rewrites its own file dependency — to completion marks it done while its
cache entry still holds the pre-action snapshot (version 1) of file 0,
whose live version is 2, and the snapshot-refresh promise `(0, 0)` is
still unserviced: the source creates the post-action refresh promises but
never pushes them into `promisesInProgress`, so `await Promise.all`
awaits an empty list and the recomputation is not awaited (and the write
not performed) before the task is marked done. -/
theorem postActionRecalc_not_awaited :
    run env1 (init env1 0) trace1 = some s1end ∧
    0 ∈ s1end.done ∧
    manGet s1end.manifest 0 0 = some 1 ∧
    verOf s1end 0 = 2 ∧
    (0, 0) ∈ s1end.pending :=
  ⟨by decide, by decide, by decide, by decide, by decide⟩

end Dnit
